import Mathlib

set_option maxRecDepth 20000

/-!
Verification development for `cmake/scripts/generate_resources.py` of the
YuchenUI repository.  The Python tool is shallowly embedded: pure helpers
become Lean functions on `String` / `List Char` / `Nat`; the filesystem walk
is an explicit list of entries; file reads and stats are explicit functions
returning `Option`; a Python exception (IndexError, IOError) is modelled as
`Option.none` propagating out of the translated function.

Machine integers: Python ints are unbounded, so `Nat` is used directly; the
32-bit arithmetic inside MD5 uses explicit `% 2^32`.  Python floats appear
only as `float(digits)` for a decimal digit string and as the design scale;
these are integral values and are modelled as `Nat`.
-/

/-- Lowercase hex digit for a value `n < 16`, as produced by Python `%x`
formatting. -/
def hexDigitChar (n : Nat) : Char :=
  Char.ofNat (if n < 10 then 48 + n else 87 + n)

/-- The two lowercase hex digits of a byte `b < 256`, as produced by the
Python format `%02x` (which never needs more than two digits for a byte). -/
def byteHexChars (b : Nat) : List Char :=
  [hexDigitChar (b / 16 % 16), hexDigitChar (b % 16)]

/-- UTF-8 encoding of one scalar value, modelling Python `str.encode('utf-8')`
character by character. -/
def utf8EncodeCh (c : Char) : List Nat :=
  let n := c.toNat
  if n < 0x80 then [n]
  else if n < 0x800 then
    [0xc0 ||| (n >>> 6), 0x80 ||| (n &&& 0x3f)]
  else if n < 0x10000 then
    [0xe0 ||| (n >>> 12), 0x80 ||| ((n >>> 6) &&& 0x3f), 0x80 ||| (n &&& 0x3f)]
  else
    [0xf0 ||| (n >>> 18), 0x80 ||| ((n >>> 12) &&& 0x3f),
     0x80 ||| ((n >>> 6) &&& 0x3f), 0x80 ||| (n &&& 0x3f)]

/-- UTF-8 bytes of a string, modelling Python `name.encode('utf-8')`. -/
def utf8Bytes (s : String) : List Nat :=
  s.data.flatMap utf8EncodeCh

/-! ### MD5 (RFC 1321), used by `sanitize_identifier` via `hashlib.md5` -/

/-- The 64 MD5 round constants `floor(2^32 * abs(sin(i+1)))`. -/
def md5K : List Nat :=
  [0xd76aa478, 0xe8c7b756, 0x242070db, 0xc1bdceee, 0xf57c0faf, 0x4787c62a,
   0xa8304613, 0xfd469501, 0x698098d8, 0x8b44f7af, 0xffff5bb1, 0x895cd7be,
   0x6b901122, 0xfd987193, 0xa679438e, 0x49b40821, 0xf61e2562, 0xc040b340,
   0x265e5a51, 0xe9b6c7aa, 0xd62f105d, 0x02441453, 0xd8a1e681, 0xe7d3fbc8,
   0x21e1cde6, 0xc33707d6, 0xf4d50d87, 0x455a14ed, 0xa9e3e905, 0xfcefa3f8,
   0x676f02d9, 0x8d2a4c8a, 0xfffa3942, 0x8771f681, 0x6d9d6122, 0xfde5380c,
   0xa4beea44, 0x4bdecfa9, 0xf6bb4b60, 0xbebfbc70, 0x289b7ec6, 0xeaa127fa,
   0xd4ef3085, 0x04881d05, 0xd9d4d039, 0xe6db99e5, 0x1fa27cf8, 0xc4ac5665,
   0xf4292244, 0x432aff97, 0xab9423a7, 0xfc93a039, 0x655b59c3, 0x8f0ccc92,
   0xffeff47d, 0x85845dd1, 0x6fa87e4f, 0xfe2ce6e0, 0xa3014314, 0x4e0811a1,
   0xf7537e82, 0xbd3af235, 0x2ad7d2bb, 0xeb86d391]

/-- The 64 MD5 per-round left-rotation amounts. -/
def md5S : List Nat :=
  [7, 12, 17, 22, 7, 12, 17, 22, 7, 12, 17, 22, 7, 12, 17, 22,
   5, 9, 14, 20, 5, 9, 14, 20, 5, 9, 14, 20, 5, 9, 14, 20,
   4, 11, 16, 23, 4, 11, 16, 23, 4, 11, 16, 23, 4, 11, 16, 23,
   6, 10, 15, 21, 6, 10, 15, 21, 6, 10, 15, 21, 6, 10, 15, 21]

/-- 32-bit left rotation. -/
def rotl32 (x s : Nat) : Nat :=
  ((x <<< s) ||| (x >>> (32 - s))) % 4294967296

/-- `n` bytes of `v`, little-endian. -/
def leBytes : Nat → Nat → List Nat
  | 0, _ => []
  | n + 1, v => (v % 256) :: leBytes n (v / 256)

/-- Group bytes into 32-bit little-endian words. -/
def wordsLE : List Nat → List Nat
  | b0 :: b1 :: b2 :: b3 :: rest =>
      (b0 + b1 * 256 + b2 * 65536 + b3 * 16777216) :: wordsLE rest
  | _ => []

/-- MD5 padding: append `0x80`, zero bytes to 56 mod 64, then the bit length
as 8 little-endian bytes. -/
def md5Pad (msg : List Nat) : List Nat :=
  let len := msg.length
  let zeros := (120 - ((len + 1) % 64)) % 64
  msg ++ 0x80 :: (List.replicate zeros 0 ++ leBytes 8 ((len * 8) % 18446744073709551616))

/-- Split into 64-byte blocks; `fuel` bounds the recursion (any
`fuel ≥ length` is enough). -/
def toBlocksF : Nat → List Nat → List (List Nat)
  | 0, _ => []
  | _ + 1, [] => []
  | fuel + 1, l => l.take 64 :: toBlocksF fuel (l.drop 64)

/-- One MD5 round `i` (0 ≤ i < 64) on state `(a, b, c, d)` with message
words `M`. -/
def md5Step (M : List Nat) (st : Nat × Nat × Nat × Nat) (i : Nat) :
    Nat × Nat × Nat × Nat :=
  let a := st.1
  let b := st.2.1
  let c := st.2.2.1
  let d := st.2.2.2
  let f :=
    if i < 16 then (b &&& c) ||| ((b ^^^ 0xffffffff) &&& d)
    else if i < 32 then (d &&& b) ||| ((d ^^^ 0xffffffff) &&& c)
    else if i < 48 then b ^^^ c ^^^ d
    else c ^^^ (b ||| (d ^^^ 0xffffffff))
  let g :=
    if i < 16 then i
    else if i < 32 then (5 * i + 1) % 16
    else if i < 48 then (3 * i + 5) % 16
    else (7 * i) % 16
  let tmp := (a + f + md5K.getD i 0 + M.getD g 0) % 4294967296
  (d, (b + rotl32 tmp (md5S.getD i 0)) % 4294967296, b, c)

/-- MD5 compression of one 64-byte block. -/
def md5Compress (st : Nat × Nat × Nat × Nat) (block : List Nat) :
    Nat × Nat × Nat × Nat :=
  let M := wordsLE block
  let r := (List.range 64).foldl (md5Step M) st
  ((st.1 + r.1) % 4294967296, (st.2.1 + r.2.1) % 4294967296,
   (st.2.2.1 + r.2.2.1) % 4294967296, (st.2.2.2 + r.2.2.2) % 4294967296)

/-- The 16 digest bytes of MD5 over a byte message. -/
def md5DigestBytes (msg : List Nat) : List Nat :=
  let padded := md5Pad msg
  let st := (toBlocksF padded.length padded).foldl md5Compress
    (0x67452301, 0xefcdab89, 0x98badcfe, 0x10325476)
  leBytes 4 st.1 ++ leBytes 4 st.2.1 ++ leBytes 4 st.2.2.1 ++ leBytes 4 st.2.2.2

/-- The 32 lowercase hex characters of the MD5 digest, modelling
`hashlib.md5(...).hexdigest()`. -/
def md5HexChars (msg : List Nat) : List Char :=
  (md5DigestBytes msg).flatMap byteHexChars


/-! ### Python string / pathlib helpers used by the script -/

/-- Python `str(n)` for a non-negative int: little-endian digit list;
`fuel > n` suffices. -/
def decDigitsAux : Nat → Nat → List Char
  | 0, _ => []
  | fuel + 1, n =>
    if n < 10 then [hexDigitChar n]
    else hexDigitChar (n % 10) :: decDigitsAux fuel (n / 10)

/-- Python `str(n)` (decimal rendering) for a natural number. -/
def pyStrNat (n : Nat) : String :=
  String.mk (decDigitsAux (n + 1) n).reverse

/-- Python `sep.join(parts)`. -/
def pyJoin (sep : String) : List String → String
  | [] => ""
  | [x] => x
  | x :: xs => x ++ sep ++ pyJoin sep xs

/-- Split a character list on `'/'` (always returns at least one piece). -/
def splitSlash : List Char → List (List Char)
  | [] => [[]]
  | c :: rest =>
    if c = '/' then [] :: splitSlash rest
    else
      match splitSlash rest with
      | h :: t => (c :: h) :: t
      | [] => [[c]]

/-- `pathlib.PurePosixPath(s).name`: the final path component, after dropping
empty components and `'.'` components (pathlib normalizes those away; a path
reducing to nothing, such as `''`, `'.'` or `'/'`, has name `''`). -/
def pyPathNameChars (s : List Char) : List Char :=
  (((splitSlash s).filter (fun p => p ≠ [] ∧ p ≠ ['.'])).getLastD [])

/-- Index of the last `'.'` in a character list, if any
(Python `str.rfind('.')` when it does not return -1). -/
def lastDotIdx : List Char → Option Nat
  | [] => none
  | c :: rest =>
    match lastDotIdx rest with
    | some i => some (i + 1)
    | none => if c = '.' then some 0 else none

/-- `pathlib` stem rule applied to a final component `name`:
`i = name.rfind('.')`; if `0 < i < len(name) - 1` the stem is `name[:i]`,
otherwise the whole name. -/
def stemOfName (name : List Char) : List Char :=
  match lastDotIdx name with
  | some i => if 0 < i ∧ i < name.length - 1 then name.take i else name
  | none => name

/-- `pathlib.PurePosixPath(s).stem`, as used by `sanitize_identifier`. -/
def pyStem (s : String) : List Char :=
  stemOfName (pyPathNameChars s.data)

/-- Python `str.isalnum` / `str.isalpha` are Unicode-aware.  They are modelled
exactly on ASCII; of the non-ASCII alphanumeric characters only `'é'` (U+00E9,
a lowercase letter, for which Python returns `True` from both predicates) is
included, which is all this development needs. -/
def pyIsAlnum (c : Char) : Bool :=
  c.isAlphanum || c = 'é'

/-- Python `str.isalpha`, modelled like `pyIsAlnum` (ASCII exact, plus `'é'`). -/
def pyIsAlpha (c : Char) : Bool :=
  c.isAlpha || c = 'é'

/-! ### The translated script functions -/

/-- `sanitize_identifier` (generate_resources.py lines 19–26).  Python's
`sanitized[0]` raises `IndexError` when the stem is empty; that exception is
modelled as `none`. -/
def sanitize_identifier (name : String) : Option String :=
  let stem := pyStem name
  let hash_suffix := (md5HexChars (utf8Bytes name)).take 8
  let sanitized := stem.map (fun c => if pyIsAlnum c || c = '_' then c else '_')
  match sanitized with
  | [] => none
  | c0 :: _ =>
    let sanitized := if ¬ pyIsAlpha c0 then 'r' :: 'e' :: 's' :: '_' :: sanitized
      else sanitized
    some (String.mk (sanitized ++ '_' :: hash_suffix))

/-- Case-insensitive prefix test against a pattern given as
(lowercase, uppercase) character pairs, modelling a `re.IGNORECASE` literal
for ASCII text. -/
def ciPref : List (Char × Char) → List Char → Bool
  | [], _ => true
  | _ :: _, [] => false
  | (lo, up) :: ps, c :: cs => (c = lo || c = up) && ciPref ps cs

/-- The alternation `(png|jpg|jpeg|bmp)` of the scale regex, case-insensitive,
matched as a prefix of the remaining characters (the regex is unanchored, so
anything may follow). -/
def extAfter (l : List Char) : Bool :=
  ciPref [('p', 'P'), ('n', 'N'), ('g', 'G')] l ||
  ciPref [('j', 'J'), ('p', 'P'), ('g', 'G')] l ||
  ciPref [('j', 'J'), ('p', 'P'), ('e', 'E'), ('g', 'G')] l ||
  ciPref [('b', 'B'), ('m', 'M'), ('p', 'P')] l

/-- Numeric value of an ASCII digit string (Python `float(group(1))`, which is
integral here and therefore modelled as `Nat`). -/
def digitsVal (ds : List Char) : Nat :=
  ds.foldl (fun a c => 10 * a + (c.toNat - 48)) 0

/-- Attempt of the regex `@(\d+)x\.(png|jpg|jpeg|bmp)` (IGNORECASE) at the
start of `l`: literal `'@'`, a maximal nonempty digit run (greedy `\d+`
cannot backtrack successfully, since `x`/`X` is not a digit), then `x` or
`X`, a literal `'.'`, and the extension alternation. -/
def matchAt : List Char → Option Nat
  | [] => none
  | c :: rest =>
    if c = '@' then
      if rest.takeWhile Char.isDigit = [] then none
      else
        match rest.dropWhile Char.isDigit with
        | x :: y :: rest2 =>
          if y = '.' ∧ (x = 'x' ∨ x = 'X') ∧ extAfter rest2 = true then
            some (digitsVal (rest.takeWhile Char.isDigit))
          else none
        | _ => none
    else none

/-- `re.search` semantics: try `matchAt` at each position, left to right. -/
def searchScale : List Char → Option Nat
  | [] => none
  | c :: rest =>
    match matchAt (c :: rest) with
    | some v => some v
    | none => searchScale rest

/-- `parse_design_scale` (lines 12–16): the captured integer of the first
match, else 1.  The Python float result is integral and modelled as `Nat`. -/
def parse_design_scale (filename : String) : Nat :=
  (searchScale filename.data).getD 1

/-! ### Collector (`collect_resources`, lines 29–51)

`input_dir.rglob('*')` is modelled as an explicit list of walk entries in
traversal order; each entry carries its path components relative to the input
root.  `pathlib` descends into hidden directories and matches dot-files, so
the walk list contains every descendant. -/

/-- One entry yielded by the filesystem walk. -/
structure WalkEntry where
  parts : List String
  isFile : Bool
deriving DecidableEq

/-- `file_path.name`: the final path component of a walk entry. -/
def WalkEntry.fname (e : WalkEntry) : String :=
  e.parts.getLastD ""

/-- `name.startswith('.')` for the hidden-file test (line 35). -/
def startsWithDot (s : String) : Bool :=
  match s.data with
  | c :: _ => c = '.'
  | [] => false

/-- One collected resource value: the tuple
`(file_path, normalized_path, design_scale)` stored in the mapping. -/
structure ResourceEntry where
  sourceParts : List String
  relativePath : String
  designScale : Nat
deriving DecidableEq

/-- Candidate identifier number `k` of the collision loop: the original
identifier for `k = 0`, `f"{original}_{k}"` afterwards. -/
def candidate (orig : String) : Nat → String
  | 0 => orig
  | k + 1 => orig ++ "_" ++ pyStrNat (k + 1)

/-- The `while identifier in resources` loop (lines 42–46): starting at
candidate `i`, return the first candidate not in `taken`; `fuel` bounds the
recursion (`taken.length + 1` is always enough). -/
def resolveGo (taken : List String) (orig : String) : Nat → Nat → String
  | 0, i => candidate orig i
  | fuel + 1, i =>
    if candidate orig i ∈ taken then resolveGo taken orig fuel (i + 1)
    else candidate orig i

/-- Collision resolution: the first of `orig, orig_1, orig_2, …` that is not
an existing key. -/
def resolveCollision (taken : List String) (orig : String) : String :=
  resolveGo taken orig (taken.length + 1) 0

/-- The eligibility test of the walk loop (line 35): a regular file whose
own base name does not start with `'.'`. -/
def keepEntry (e : WalkEntry) : Bool :=
  e.isFile && !startsWithDot e.fname

/-- The resource value recorded for an eligible walk entry. -/
def entryRes (e : WalkEntry) : ResourceEntry :=
  ⟨e.parts, pyJoin "/" e.parts, parse_design_scale e.fname⟩

/-- Well-formedness of a walk entry, guaranteed by any real filesystem walk:
a nonempty component list whose components are nonempty, contain no `'/'`,
and are not the special component `'.'`. -/
def wfEntry (e : WalkEntry) : Prop :=
  e.parts ≠ [] ∧ ∀ p ∈ e.parts, p.data ≠ [] ∧ '/' ∉ p.data ∧ p.data ≠ ['.']

/-- The body of the walk loop for one eligible file: compute the normalized
relative path, identifier (de-duplicated against existing keys), design
scale, and append to the mapping.  `none` models the `IndexError` escaping
from `sanitize_identifier`. -/
def collectStep (e : WalkEntry) (acc : List (String × ResourceEntry)) :
    Option (List (String × ResourceEntry)) :=
  match sanitize_identifier (pyJoin "/" e.parts) with
  | none => none
  | some ident =>
    some (acc ++ [(resolveCollision (acc.map Prod.fst) ident, entryRes e)])

/-- The walk loop (lines 34–49) over the remaining entries. -/
def collectGo : List WalkEntry → List (String × ResourceEntry) →
    Option (List (String × ResourceEntry))
  | [], acc => some acc
  | e :: rest, acc =>
    if keepEntry e then
      match collectStep e acc with
      | none => none
      | some acc2 => collectGo rest acc2
    else collectGo rest acc

/-- `collect_resources`: empty mapping when the input directory does not
exist, otherwise the walk loop starting from the empty mapping.  The Python
dict is insertion-ordered and every insertion uses a fresh key, so it is
modelled as an association list. -/
def collect_resources (dirExists : Bool) (walk : List WalkEntry) :
    Option (List (String × ResourceEntry)) :=
  if dirExists then collectGo walk [] else some []

/-! ### Emitters (lines 54–160)

The emitters write template text; the model records the data each template
interpolates, in emission order: the header's `extern` declaration names, the
source file's per-resource byte-array literals and `ResourceData`
initializers plus the `all_resources` array, and the JSON index entries.
File reads (`open(file_path, 'rb')`, line 98) and `stat` calls (line 150) are
explicit functions returning `none` on failure, which models the exception
aborting the run. -/

/-- `Option`-valued map over a list, failing if any element fails (first
failure aborts, like an exception in the Python loop). -/
def optionMapList (f : α → Option β) : List α → Option (List β)
  | [] => some []
  | a :: as =>
    match f a, optionMapList f as with
    | some b, some bs => some (b :: bs)
    | _, _ => none

/-- `generate_header` (lines 54–83): the sequence of `extern const
ResourceData {identifier};` declarations, in mapping order. -/
def generate_header (resources : List (String × ResourceEntry)) : List String :=
  resources.map Prod.fst

/-- The byte-array literal body `', '.join(f'0x{b:02x}' for b in data)`
(line 101). -/
def hexDataLit (data : List Nat) : String :=
  pyJoin ", " (data.map (fun b => "0x" ++ String.mk (byteHexChars b)))

/-- One emitted `{identifier}_data[]` array plus `ResourceData` initializer
of the source file (lines 104–113). -/
structure EmittedResource where
  identifier : String
  hexData : String
  size : Nat
  pathLiteral : String
  designScale : Nat
deriving DecidableEq

/-- The source artifact: the per-resource records and the `all_resources`
array contents (lines 117–123) with its declared element count. -/
structure SourceArtifact where
  records : List EmittedResource
  arrayIds : List String
  count : Nat
deriving DecidableEq

/-- Emission of one resource in `generate_source`: read the raw bytes
(line 98; `none` = unreadable file = IOError) and build the interpolated
record. -/
def emitOne (readFile : List String → Option (List Nat))
    (p : String × ResourceEntry) : Option EmittedResource :=
  match readFile p.2.sourceParts with
  | none => none
  | some data =>
    some ⟨p.1, hexDataLit data, data.length, p.2.relativePath, p.2.designScale⟩

/-- `generate_source` (lines 86–143): all reads happen while the content
string is built, before the output file is opened, so an unreadable file
yields `none` with no source file written at all. -/
def generate_source (resources : List (String × ResourceEntry))
    (readFile : List String → Option (List Nat)) : Option SourceArtifact :=
  (optionMapList (emitOne readFile) resources).map
    (fun recs => ⟨recs, resources.map Prod.fst, resources.length⟩)

/-- One JSON index entry (lines 151–157); `size`/`modified` come from
`file_path.stat()`. -/
structure IndexEntry where
  identifier : String
  path : String
  designScale : Nat
  size : Nat
  modified : Nat
deriving DecidableEq

/-- `generate_index` (lines 146–160): the `resources` list of the JSON
document; a failing `stat` (vanished file) raises, modelled as `none`. -/
def generate_index (resources : List (String × ResourceEntry))
    (stat : List String → Option (Nat × Nat)) : Option (List IndexEntry) :=
  optionMapList
    (fun p =>
      match stat p.2.sourceParts with
      | none => none
      | some sm => some ⟨p.1, p.2.relativePath, p.2.designScale, sm.1, sm.2⟩)
    resources

/-! ### The run pipeline (`main`, lines 163–191) -/

/-- Outcome of one run: which output files were (completely) written, and
whether the process finished without an exception.  `main` writes the header
first, then the source, then the index; an exception leaves the earlier
files in place. -/
structure RunResult where
  header : Option (List String)
  source : Option SourceArtifact
  index : Option (List IndexEntry)
  ok : Bool
deriving DecidableEq

/-- The pipeline of `main`: collect, emit header, emit source, emit index;
the first exception aborts the rest but does not roll back files already
written. -/
def runTool (dirExists : Bool) (walk : List WalkEntry)
    (readFile : List String → Option (List Nat))
    (stat : List String → Option (Nat × Nat)) : RunResult :=
  match collect_resources dirExists walk with
  | none => ⟨none, none, none, false⟩
  | some resources =>
    let hdr := generate_header resources
    match generate_source resources readFile with
    | none => ⟨some hdr, none, none, false⟩
    | some src =>
      match generate_index resources stat with
      | none => ⟨some hdr, some src, none, false⟩
      | some idx => ⟨some hdr, some src, some idx, true⟩

/-! ### Claim-side definitions

These definitions follow the wording of the specification / claims, to be
compared with the source-derived definitions above. -/

/-- The symbol grammar `[A-Za-z_][A-Za-z0-9_]*` from the spec (§8). -/
def isAsciiIdent (s : String) : Bool :=
  match s.data with
  | [] => false
  | c :: rest => (c.isAlpha || c = '_') && rest.all (fun c => c.isAlphanum || c = '_')

/-- ASCII hex digit (lowercase), the alphabet of a hex digest. -/
def isHexDigitCh (c : Char) : Bool :=
  c.isDigit || ('a' ≤ c && c ≤ 'f')

/-- A string consists only of ASCII characters. -/
def asciiOnly (s : String) : Prop :=
  ∀ c ∈ s.data, c.toNat < 128

instance (s : String) : Decidable (asciiOnly s) := by
  unfold asciiOnly
  infer_instance

/-- Spec wording of the density marker (claim C5): at position `i` the
filename contains `@<digits>x` (`x` case-insensitive) immediately followed
by `.` and an image extension png/jpg/jpeg/bmp (case-insensitive); `v` is
the integer value of the digits. -/
def markerAt (l : List Char) (i v : Nat) : Prop :=
  ∃ ds x rest, l.drop i = '@' :: (ds ++ x :: '.' :: rest) ∧
    ds ≠ [] ∧ (∀ c ∈ ds, c.isDigit = true) ∧ (x = 'x' ∨ x = 'X') ∧
    extAfter rest = true ∧ v = digitsVal ds

/-- Decoder for the emitted byte-array literal: inverts
`', '.join(f'0x{b:02x}' for b in data)`, recovering the byte list. -/
def decodeHexData : List Char → Option (List Nat)
  | [] => some []
  | '0' :: 'x' :: h1 :: h2 :: rest =>
    if h1 ∈ "0123456789abcdef".data ∧ h2 ∈ "0123456789abcdef".data then
      let b := 16 * ("0123456789abcdef".data.indexOf h1) +
        "0123456789abcdef".data.indexOf h2
      match rest with
      | [] => some [b]
      | ',' :: ' ' :: rest2 =>
        match decodeHexData rest2 with
        | some bs => some (b :: bs)
        | none => none
      | _ => none
    else none
  | _ => none

/-! ### Infrastructure lemmas -/

/-- Little-endian value of a decimal digit character list (proof tool for the
injectivity of `pyStrNat`). -/
def decValAux : List Char → Nat
  | [] => 0
  | c :: cs => (c.toNat - 48) + 10 * decValAux cs

theorem hexDigitChar_toNat_lt10 : ∀ n < 10, (hexDigitChar n).toNat = 48 + n := by
  decide

theorem decValAux_decDigitsAux : ∀ fuel n, n < fuel →
    decValAux (decDigitsAux fuel n) = n := by
  intro fuel
  induction fuel with
  | zero => omega
  | succ fuel ih =>
    intro n hn
    by_cases h10 : n < 10
    · simp only [decDigitsAux, if_pos h10, decValAux,
        hexDigitChar_toNat_lt10 n h10]
      omega
    · have hdiv : n / 10 < fuel := by omega
      simp only [decDigitsAux, if_neg h10, decValAux, ih _ hdiv,
        hexDigitChar_toNat_lt10 (n % 10) (Nat.mod_lt _ (by omega))]
      omega

theorem pyStrNat_injective : Function.Injective pyStrNat := by
  intro m n h
  have h3 : decDigitsAux (m + 1) m = decDigitsAux (n + 1) n :=
    List.reverse_injective (String.ext_iff.mp h)
  have hm := decValAux_decDigitsAux (m + 1) m (by omega)
  have hn := decValAux_decDigitsAux (n + 1) n (by omega)
  rw [h3, hn] at hm
  omega

theorem decDigitsAux_ne_nil (n : Nat) : decDigitsAux (n + 1) n ≠ [] := by
  by_cases h10 : n < 10 <;> simp [decDigitsAux, h10]

theorem candidate_succ_data (orig : String) (k : Nat) :
    (candidate orig (k + 1)).data = orig.data ++ '_' :: (pyStrNat (k + 1)).data := by
  show (orig ++ "_" ++ pyStrNat (k + 1)).data = _
  have h1 : ("_" : String).data = ['_'] := rfl
  simp [String.data_append, h1]

theorem candidate_injective (orig : String) :
    Function.Injective (candidate orig) := by
  intro m n h
  match m, n with
  | 0, 0 => rfl
  | 0, k + 1 =>
    exfalso
    have hd := congrArg String.data h
    rw [candidate_succ_data] at hd
    have h2 : orig.data = orig.data ++ '_' :: (pyStrNat (k + 1)).data := hd
    have hl := congrArg List.length h2
    simp at hl
  | k + 1, 0 =>
    exfalso
    have hd := congrArg String.data h
    rw [candidate_succ_data] at hd
    have h2 : orig.data ++ '_' :: (pyStrNat (k + 1)).data = orig.data := hd
    have hl := congrArg List.length h2
    simp at hl
  | j + 1, k + 1 =>
    have hd := congrArg String.data h
    rw [candidate_succ_data, candidate_succ_data] at hd
    have h2 := List.append_cancel_left hd
    injection h2 with _ h3
    have h4 : pyStrNat (j + 1) = pyStrNat (k + 1) := String.ext h3
    have := pyStrNat_injective h4
    omega

theorem resolveGo_mem_all (taken : List String) (orig : String) :
    ∀ fuel i, resolveGo taken orig fuel i ∈ taken →
      ∀ k ≤ fuel, candidate orig (i + k) ∈ taken := by
  intro fuel
  induction fuel with
  | zero =>
    intro i h k hk
    interval_cases k
    simpa [resolveGo] using h
  | succ fuel ih =>
    intro i h k hk
    by_cases hmem : candidate orig i ∈ taken
    · rw [resolveGo, if_pos hmem] at h
      match k with
      | 0 => simpa using hmem
      | k + 1 =>
        have := ih (i + 1) h k (by omega)
        simpa [Nat.add_assoc, Nat.add_comm 1 k] using this
    · rw [resolveGo, if_neg hmem] at h
      exact absurd h hmem

theorem resolveCollision_not_mem (taken : List String) (orig : String) :
    resolveCollision taken orig ∉ taken := by
  intro h
  have hall := resolveGo_mem_all taken orig (taken.length + 1) 0 h
  have hsub : (Finset.range (taken.length + 2)).image (candidate orig) ⊆
      taken.toFinset := by
    intro s hs
    rcases Finset.mem_image.mp hs with ⟨k, hk, rfl⟩
    rw [Finset.mem_range] at hk
    rw [List.mem_toFinset]
    simpa using hall k (by omega)
  have hcard := Finset.card_le_card hsub
  rw [Finset.card_image_of_injective _ (candidate_injective orig),
    Finset.card_range] at hcard
  have := List.toFinset_card_le taken
  omega

theorem resolveGo_least (taken : List String) (orig : String) :
    ∀ fuel i, resolveGo taken orig fuel i ∉ taken →
      ∃ k, resolveGo taken orig fuel i = candidate orig (i + k) ∧
        (∀ j < k, candidate orig (i + j) ∈ taken) := by
  intro fuel
  induction fuel with
  | zero =>
    intro i h
    exact ⟨0, by simp [resolveGo], by omega⟩
  | succ fuel ih =>
    intro i h
    by_cases hmem : candidate orig i ∈ taken
    · rw [resolveGo, if_pos hmem] at h ⊢
      rcases ih (i + 1) h with ⟨k, hk1, hk2⟩
      refine ⟨k + 1, by rw [hk1]; ring_nf, ?_⟩
      intro j hj
      match j with
      | 0 => simpa using hmem
      | j + 1 =>
        have := hk2 j (by omega)
        simpa [Nat.add_assoc, Nat.add_comm 1 j] using this
    · rw [resolveGo, if_neg hmem] at h ⊢
      exact ⟨0, by simp, by omega⟩

theorem resolveCollision_spec (taken : List String) (orig : String) :
    ∃ k, resolveCollision taken orig = candidate orig k ∧
      candidate orig k ∉ taken ∧ ∀ j < k, candidate orig j ∈ taken := by
  have hnm := resolveCollision_not_mem taken orig
  rcases resolveGo_least taken orig (taken.length + 1) 0 hnm with ⟨k, hk1, hk2⟩
  refine ⟨k, by simpa using hk1, ?_, by simpa using hk2⟩
  rw [resolveCollision] at hnm
  rw [hk1] at hnm
  simpa using hnm

/-! ### Path normalization lemmas -/

/-- `'/'.join` at the character level. -/
def charJoin : List (List Char) → List Char
  | [] => []
  | [x] => x
  | x :: xs => x ++ '/' :: charJoin xs

theorem pyJoin_data : ∀ parts : List String,
    (pyJoin "/" parts).data = charJoin (parts.map String.data) := by
  intro parts
  match parts with
  | [] => rfl
  | [x] => rfl
  | x :: y :: xs =>
    have ih := pyJoin_data (y :: xs)
    show (x ++ "/" ++ pyJoin "/" (y :: xs)).data = _
    have h1 : ("/" : String).data = ['/'] := rfl
    simp [String.data_append, h1, ih, charJoin]

theorem splitSlash_ne_nil : ∀ l : List Char, splitSlash l ≠ [] := by
  intro l
  match l with
  | [] => simp [splitSlash]
  | c :: rest =>
    rw [splitSlash]
    split
    · simp
    · split <;> simp

theorem splitSlash_append_noslash : ∀ (x l : List Char), '/' ∉ x →
    ∃ h t, splitSlash l = h :: t ∧ splitSlash (x ++ l) = (x ++ h) :: t := by
  intro x
  induction x with
  | nil =>
    intro l _
    match hl : splitSlash l, splitSlash_ne_nil l with
    | h :: t, _ => exact ⟨h, t, rfl, by simp [hl]⟩
  | cons c x ih =>
    intro l hns
    have hc : c ≠ '/' := by
      intro hc
      exact hns (by simp [hc])
    rcases ih l (fun hm => hns (by simp [hm])) with ⟨h, t, h1, h2⟩
    refine ⟨h, t, h1, ?_⟩
    show splitSlash (c :: (x ++ l)) = _
    rw [splitSlash, if_neg hc, h2]
    rfl

theorem splitSlash_charJoin : ∀ ls : List (List Char), ls ≠ [] →
    (∀ p ∈ ls, '/' ∉ p) → splitSlash (charJoin ls) = ls := by
  intro ls
  match ls with
  | [] => intro h; exact absurd rfl h
  | [x] =>
    intro _ hns
    rcases splitSlash_append_noslash x [] (hns x (by simp)) with ⟨h, t, h1, h2⟩
    have h1' : ([] : List Char) :: [] = h :: t := by simpa [splitSlash] using h1.symm
    injection h1' with he te
    rw [show charJoin [x] = x ++ [] by simp [charJoin]]
    rw [h2, ← he, ← te]
    simp
  | x :: y :: ys =>
    intro _ hns
    have ih := splitSlash_charJoin (y :: ys) (by simp)
      (fun p hp => hns p (by simp [hp]))
    rcases splitSlash_append_noslash x ('/' :: charJoin (y :: ys))
      (hns x (by simp)) with ⟨h, t, h1, h2⟩
    have h1' : ([] : List Char) :: splitSlash (charJoin (y :: ys)) = h :: t := by
      rw [← h1, splitSlash, if_pos rfl]
    injection h1' with he te
    rw [show charJoin (x :: y :: ys) = x ++ '/' :: charJoin (y :: ys) from rfl]
    rw [h2, ← he, ← te, ih]
    simp

theorem getLastD_map_data : ∀ (parts : List String), parts ≠ [] →
    (parts.map String.data).getLastD [] = (parts.getLastD "").data := by
  intro parts
  match parts with
  | [] => intro h; exact absurd rfl h
  | [x] => intro _; rfl
  | x :: y :: ys =>
    intro _
    have ih := getLastD_map_data (y :: ys) (by simp)
    simpa using ih

theorem getLastD_mem (l : List String) (hl : l ≠ []) : l.getLastD "" ∈ l := by
  induction l with
  | nil => exact absurd rfl hl
  | cons x xs ih =>
    match xs, ih with
    | [], _ => simp [List.getLastD]
    | y :: ys, ih =>
      rw [List.getLastD_eq_getLast?, List.getLast?_cons_cons,
        ← List.getLastD_eq_getLast?]
      exact List.mem_cons_of_mem x (ih (by simp))

/-! ### Stem and sanitizer lemmas -/

theorem stemOfName_ne_nil (name : List Char) (h : name ≠ []) :
    stemOfName name ≠ [] := by
  unfold stemOfName
  cases hidx : lastDotIdx name with
  | none => simp only [hidx]; exact h
  | some i =>
    simp only [hidx]
    split_ifs with hcond
    · rw [Ne, List.take_eq_nil_iff]
      push_neg
      exact ⟨by omega, h⟩
    · exact h

theorem pyStem_pyJoin (parts : List String) (hne : parts ≠ [])
    (hwf : ∀ p ∈ parts, p.data ≠ [] ∧ '/' ∉ p.data ∧ p.data ≠ ['.']) :
    pyStem (pyJoin "/" parts) = stemOfName (parts.getLastD "").data := by
  unfold pyStem pyPathNameChars
  rw [pyJoin_data, splitSlash_charJoin (parts.map String.data)
    (by simpa using hne)
    (by intro p hp
        rcases List.mem_map.mp hp with ⟨q, hq, rfl⟩
        exact (hwf q hq).2.1)]
  rw [List.filter_eq_self.mpr
    (by intro a ha
        rcases List.mem_map.mp ha with ⟨q, hq, rfl⟩
        simp [(hwf q hq).1, (hwf q hq).2.2])]
  rw [getLastD_map_data parts hne]

theorem sanitize_isSome_iff (name : String) :
    (sanitize_identifier name).isSome ↔ pyStem name ≠ [] := by
  unfold sanitize_identifier
  cases h : pyStem name with
  | nil => simp [h]
  | cons c cs => simp [h]

theorem wf_sanitize_isSome (e : WalkEntry) (hwf : wfEntry e) :
    (sanitize_identifier (pyJoin "/" e.parts)).isSome := by
  rw [sanitize_isSome_iff, pyStem_pyJoin e.parts hwf.1 hwf.2]
  exact stemOfName_ne_nil _ (hwf.2 _ (getLastD_mem e.parts hwf.1)).1

/-! ### Collector lemmas -/

theorem collectStep_fresh (e : WalkEntry) (acc acc2 : List (String × ResourceEntry))
    (heq : collectStep e acc = some acc2) :
    ∃ ident2, acc2 = acc ++ [(ident2, entryRes e)] ∧
      ident2 ∉ acc.map Prod.fst := by
  unfold collectStep at heq
  cases h : sanitize_identifier (pyJoin "/" e.parts) with
  | none => rw [h] at heq; cases heq
  | some ident =>
    rw [h] at heq
    simp only [Option.some.injEq] at heq
    exact ⟨resolveCollision (acc.map Prod.fst) ident, heq.symm,
      resolveCollision_not_mem _ _⟩

theorem collectGo_nodup (walk : List WalkEntry) :
    ∀ acc res, (acc.map Prod.fst).Nodup → collectGo walk acc = some res →
      (res.map Prod.fst).Nodup := by
  induction walk with
  | nil =>
    intro acc res h heq
    cases heq
    exact h
  | cons e rest ih =>
    intro acc res hnd heq
    rw [collectGo] at heq
    split at heq
    · cases hstep : collectStep e acc with
      | none => rw [hstep] at heq; cases heq
      | some acc2 =>
        rw [hstep] at heq
        rcases collectStep_fresh e acc acc2 hstep with ⟨ident2, rfl, hfresh⟩
        refine ih _ res ?_ heq
        simp only [List.map_append, List.map_cons, List.map_nil]
        rw [List.nodup_append]
        exact ⟨hnd, List.nodup_singleton _, by simpa using hfresh⟩
    · exact ih acc res hnd heq

theorem collectGo_proj (walk : List WalkEntry) :
    ∀ acc, (∀ e ∈ walk, keepEntry e = true →
        (sanitize_identifier (pyJoin "/" e.parts)).isSome) →
      ∃ res, collectGo walk acc = some res ∧
        res.map Prod.snd = acc.map Prod.snd ++
          (walk.filter keepEntry).map entryRes := by
  induction walk with
  | nil => intro acc _; exact ⟨acc, rfl, by simp⟩
  | cons e rest ih =>
    intro acc hs
    by_cases hk : keepEntry e = true
    · have hsome := hs e (by simp) hk
      rcases Option.isSome_iff_exists.mp hsome with ⟨ident, hident⟩
      have hstep : collectStep e acc =
          some (acc ++ [(resolveCollision (acc.map Prod.fst) ident, entryRes e)]) := by
        unfold collectStep
        rw [hident]
      rcases ih (acc ++ [(resolveCollision (acc.map Prod.fst) ident, entryRes e)])
        (fun e2 he2 hk2 => hs e2 (by simp [he2]) hk2) with ⟨res, h1, h2⟩
      refine ⟨res, ?_, ?_⟩
      · rw [collectGo, if_pos hk, hstep]
        exact h1
      · rw [h2, List.filter_cons, if_pos hk]
        simp
    · rcases ih acc (fun e2 he2 hk2 => hs e2 (by simp [he2]) hk2) with ⟨res, h1, h2⟩
      refine ⟨res, ?_, ?_⟩
      · rw [collectGo, if_neg hk]
        exact h1
      · rw [h2, List.filter_cons, if_neg hk]

theorem collect_nodup (dirExists : Bool) (walk : List WalkEntry)
    (res : List (String × ResourceEntry))
    (heq : collect_resources dirExists walk = some res) :
    (res.map Prod.fst).Nodup := by
  unfold collect_resources at heq
  cases dirExists with
  | false =>
    simp only [Bool.false_eq_true, if_false, Option.some.injEq] at heq
    simp [← heq]
  | true =>
    simp only [if_true] at heq
    exact collectGo_nodup walk [] res (by simp) heq

theorem collect_proj (walk : List WalkEntry)
    (hwf : ∀ e ∈ walk, wfEntry e) :
    ∃ res, collect_resources true walk = some res ∧
      res.map Prod.snd = (walk.filter keepEntry).map entryRes := by
  rcases collectGo_proj walk []
    (fun e he _ => wf_sanitize_isSome e (hwf e he)) with ⟨res, h1, h2⟩
  exact ⟨res, by simpa [collect_resources] using h1, by simpa using h2⟩

/-! ### Emission lemmas -/

theorem optionMapList_length {α β : Type} (f : α → Option β) :
    ∀ (l : List α) (r : List β), optionMapList f l = some r →
      r.length = l.length := by
  intro l
  induction l with
  | nil => intro r h; cases h; rfl
  | cons a as ih =>
    intro r h
    rw [optionMapList] at h
    cases hfa : f a with
    | none => rw [hfa] at h; cases h
    | some b =>
      rw [hfa] at h
      cases hrec : optionMapList f as with
      | none => rw [hrec] at h; cases h
      | some bs =>
        rw [hrec] at h
        cases h
        simp [ih bs hrec]

theorem optionMapList_get {α β : Type} (f : α → Option β) :
    ∀ (l : List α) (r : List β), optionMapList f l = some r →
      ∀ i (hi : i < l.length) (hi2 : i < r.length),
        f (l.get ⟨i, hi⟩) = some (r.get ⟨i, hi2⟩) := by
  intro l
  induction l with
  | nil => intro r h i hi hi2; simp at hi
  | cons a as ih =>
    intro r h i hi hi2
    rw [optionMapList] at h
    cases hfa : f a with
    | none => rw [hfa] at h; cases h
    | some b =>
      rw [hfa] at h
      cases hrec : optionMapList f as with
      | none => rw [hrec] at h; cases h
      | some bs =>
        rw [hrec] at h
        cases h
        match i with
        | 0 => simpa using hfa
        | i + 1 => exact ih bs hrec i (by simpa using hi) (by simpa using hi2)

theorem optionMapList_map_eq {α β γ : Type} (f : α → Option β) (g : β → γ)
    (h : α → γ) (hyp : ∀ a b, f a = some b → g b = h a) :
    ∀ (l : List α) (r : List β), optionMapList f l = some r →
      r.map g = l.map h := by
  intro l
  induction l with
  | nil => intro r heq; cases heq; rfl
  | cons a as ih =>
    intro r heq
    rw [optionMapList] at heq
    cases hfa : f a with
    | none => rw [hfa] at heq; cases heq
    | some b =>
      rw [hfa] at heq
      cases hrec : optionMapList f as with
      | none => rw [hrec] at heq; cases heq
      | some bs =>
        rw [hrec] at heq
        cases heq
        simp [hyp a b hfa, ih bs hrec]

theorem optionMapList_none {α β : Type} (f : α → Option β) :
    ∀ (l : List α) (a : α), a ∈ l → f a = none →
      optionMapList f l = none := by
  intro l
  induction l with
  | nil => intro a ha; cases ha
  | cons x xs ih =>
    intro a ha hfa
    rw [optionMapList]
    rcases List.mem_cons.mp ha with rfl | hmem
    · rw [hfa]
    · rw [ih a hmem hfa]
      cases f x <;> rfl

/-! ### Hex literal round-trip -/

theorem hexDigitChar_mem_table : ∀ n < 16,
    hexDigitChar n ∈ "0123456789abcdef".data ∧
      "0123456789abcdef".data.indexOf (hexDigitChar n) = n := by
  decide

theorem decodeHexData_cons (b : Nat) (hb : b < 256) (tail : List Char) :
    decodeHexData ('0' :: 'x' :: (byteHexChars b ++ tail)) =
      match tail with
      | [] => some [b]
      | ',' :: ' ' :: rest2 =>
        (match decodeHexData rest2 with
         | some bs => some (b :: bs)
         | none => none)
      | _ => none := by
  have h1 := (hexDigitChar_mem_table (b / 16 % 16) (by omega)).1
  have h2 := (hexDigitChar_mem_table (b % 16) (Nat.mod_lt _ (by omega))).1
  have e1 := (hexDigitChar_mem_table (b / 16 % 16) (by omega)).2
  have e2 := (hexDigitChar_mem_table (b % 16) (Nat.mod_lt _ (by omega))).2
  show decodeHexData ('0' :: 'x' :: hexDigitChar (b / 16 % 16) ::
    hexDigitChar (b % 16) :: tail) = _
  rw [decodeHexData]
  rw [if_pos ⟨h1, h2⟩]
  rw [e1, e2]
  have hval : 16 * (b / 16 % 16) + b % 16 = b := by
    have : b / 16 % 16 = b / 16 := Nat.mod_eq_of_lt (by omega)
    rw [this]
    omega
  rw [hval]

theorem decode_hexDataLit : ∀ data : List Nat, (∀ b ∈ data, b < 256) →
    decodeHexData (hexDataLit data).data = some data := by
  intro data
  induction data with
  | nil => intro _; rfl
  | cons b rest ih =>
    intro hb
    match rest, ih with
    | [], _ =>
      show decodeHexData ("0x" ++ String.mk (byteHexChars b)).data = _
      have h0x : ("0x" : String).data = ['0', 'x'] := rfl
      have hmk : (String.mk (byteHexChars b)).data = byteHexChars b := rfl
      rw [String.data_append, h0x, hmk]
      have hsh : ['0', 'x'] ++ byteHexChars b =
          '0' :: 'x' :: (byteHexChars b ++ []) := by simp
      rw [hsh, decodeHexData_cons b (hb b (by simp)) []]
    | b2 :: rest2, ih =>
      have htail := ih (fun x hx => hb x (List.mem_cons_of_mem b hx))
      show decodeHexData (("0x" ++ String.mk (byteHexChars b)) ++ ", " ++
        hexDataLit (b2 :: rest2)).data = _
      rw [String.data_append, String.data_append, String.data_append]
      have h0x : ("0x" : String).data = ['0', 'x'] := rfl
      have hcm : (", " : String).data = [',', ' '] := rfl
      have hmk : (String.mk (byteHexChars b)).data = byteHexChars b := rfl
      rw [h0x, hcm, hmk]
      have hshape : (['0', 'x'] ++ byteHexChars b) ++ [',', ' '] ++
          (hexDataLit (b2 :: rest2)).data =
          '0' :: 'x' :: (byteHexChars b ++
            (',' :: ' ' :: (hexDataLit (b2 :: rest2)).data)) := by
        simp
      rw [hshape, decodeHexData_cons b (hb b (by simp))]
      show (match decodeHexData (hexDataLit (b2 :: rest2)).data with
        | some bs => some (b :: bs)
        | none => none) = some (b :: b2 :: rest2)
      rw [htail]

/-! ### Shape of the hex digest -/

theorem leBytes_length : ∀ n v, (leBytes n v).length = n := by
  intro n
  induction n with
  | zero => intro v; rfl
  | succ n ih => intro v; simp [leBytes, ih]

theorem md5DigestBytes_length (msg : List Nat) :
    (md5DigestBytes msg).length = 16 := by
  unfold md5DigestBytes
  simp [leBytes_length]

theorem flatMap_byteHex_length : ∀ l : List Nat,
    (l.flatMap byteHexChars).length = 2 * l.length := by
  intro l
  induction l with
  | nil => rfl
  | cons b rest ih =>
    simp [List.flatMap_cons, ih, byteHexChars]
    omega

theorem md5HexChars_length (msg : List Nat) :
    (md5HexChars msg).length = 32 := by
  unfold md5HexChars
  rw [flatMap_byteHex_length, md5DigestBytes_length]

theorem md5HexChars_shape (msg : List Nat) (c : Char)
    (hc : c ∈ md5HexChars msg) : ∃ n, n < 16 ∧ c = hexDigitChar n := by
  unfold md5HexChars at hc
  rcases List.mem_flatMap.mp hc with ⟨b, _, hcb⟩
  rcases List.mem_cons.mp hcb with h1 | h2
  · exact ⟨b / 16 % 16, by omega, h1⟩
  · rcases List.mem_cons.mp h2 with h3 | h4
    · exact ⟨b % 16, Nat.mod_lt _ (by omega), h3⟩
    · cases h4

theorem hexDigitChar_props : ∀ n < 16, (hexDigitChar n).isAlphanum = true ∧
    isHexDigitCh (hexDigitChar n) = true ∧ (hexDigitChar n).toNat < 128 := by
  decide

/-! ### Characters of the stem come from the input string -/

theorem splitSlash_sub : ∀ (l : List Char) (p : List Char),
    p ∈ splitSlash l → ∀ c ∈ p, c ∈ l := by
  intro l
  induction l with
  | nil =>
    intro p hp c hc
    simp [splitSlash] at hp
    rw [hp] at hc
    cases hc
  | cons a rest ih =>
    intro p hp c hc
    rw [splitSlash] at hp
    by_cases ha : a = '/'
    · rw [if_pos ha] at hp
      rcases List.mem_cons.mp hp with rfl | hmem
      · cases hc
      · exact List.mem_cons_of_mem a (ih p hmem c hc)
    · rw [if_neg ha] at hp
      match hsp : splitSlash rest, splitSlash_ne_nil rest with
      | h :: t, _ =>
        rw [hsp] at hp
        rcases List.mem_cons.mp hp with rfl | hmem
        · rcases List.mem_cons.mp hc with rfl | hch
          · exact List.mem_cons_self c rest
          · exact List.mem_cons_of_mem a
              (ih h (by rw [hsp]; exact List.mem_cons_self h t) c hch)
        · exact List.mem_cons_of_mem a
            (ih p (by rw [hsp]; exact List.mem_cons_of_mem h hmem) c hc)

theorem getLastD_mem_generic {α : Type} (l : List α) (d : α) (hl : l ≠ []) :
    l.getLastD d ∈ l := by
  induction l with
  | nil => exact absurd rfl hl
  | cons x xs ih =>
    match xs, ih with
    | [], _ => simp [List.getLastD]
    | y :: ys, ih =>
      rw [List.getLastD_eq_getLast?, List.getLast?_cons_cons,
        ← List.getLastD_eq_getLast?]
      exact List.mem_cons_of_mem x (ih (by simp))

theorem stemOfName_sub (name : List Char) : ∀ c ∈ stemOfName name, c ∈ name := by
  intro c hc
  unfold stemOfName at hc
  cases hidx : lastDotIdx name with
  | none => rw [hidx] at hc; exact hc
  | some i =>
    rw [hidx] at hc
    simp only [] at hc
    split_ifs at hc with h
    · exact List.take_subset i name hc
    · exact hc

theorem pyStem_sub (s : String) : ∀ c ∈ pyStem s, c ∈ s.data := by
  intro c hc
  unfold pyStem pyPathNameChars at hc
  have hc2 := stemOfName_sub _ c hc
  set filt := (splitSlash s.data).filter (fun p => p ≠ [] ∧ p ≠ ['.']) with hfilt
  by_cases hnil : filt = []
  · rw [hnil] at hc2
    cases hc2
  · have hmem := getLastD_mem_generic filt [] hnil
    have hsp : filt.getLastD [] ∈ splitSlash s.data :=
      List.mem_of_mem_filter hmem
    exact splitSlash_sub s.data _ hsp c hc2

/-! ### ASCII behaviour of the sanitizer -/

theorem pyIsAlpha_ascii (c : Char) (hc : c.toNat < 128) :
    pyIsAlpha c = c.isAlpha := by
  unfold pyIsAlpha
  have hne : c ≠ 'é' := by
    intro h
    rw [h] at hc
    exact absurd hc (by decide)
  simp [hne]

theorem sanitized_char_q (c : Char) (hc : c.toNat < 128) :
    (((if pyIsAlnum c || c = '_' then c else '_').isAlphanum ||
      ((if pyIsAlnum c || c = '_' then c else '_') = '_')) = true) ∧
    (if pyIsAlnum c || c = '_' then c else '_').toNat < 128 := by
  constructor
  · split_ifs with h
    · rw [Bool.or_eq_true] at h
      rcases h with h1 | h2
      · unfold pyIsAlnum at h1
        rw [Bool.or_eq_true] at h1
        rcases h1 with h3 | h4
        · simp [h3]
        · exfalso
          have hc2 : c = 'é' := of_decide_eq_true h4
          rw [hc2] at hc
          exact absurd hc (by decide)
      · have hc2 : c = '_' := of_decide_eq_true h2
        simp [hc2]
    · decide
  · split_ifs with h
    · exact hc
    · decide

theorem sanitize_zeta (name : String) :
    sanitize_identifier name =
      match (pyStem name).map
          (fun c => if pyIsAlnum c || c = '_' then c else '_') with
      | [] => none
      | c0 :: _ =>
        some (String.mk
          ((if ¬ pyIsAlpha c0 then
              'r' :: 'e' :: 's' :: '_' ::
                ((pyStem name).map
                  (fun c => if pyIsAlnum c || c = '_' then c else '_'))
            else
              (pyStem name).map
                (fun c => if pyIsAlnum c || c = '_' then c else '_')) ++
            '_' :: (md5HexChars (utf8Bytes name)).take 8)) := rfl

theorem isAsciiIdent_mk_cons (c : Char) (rest : List Char) :
    isAsciiIdent (String.mk (c :: rest)) =
      ((c.isAlpha || c = '_') && rest.all (fun d => d.isAlphanum || d = '_')) :=
  rfl

/-- C2 (amended): for every file name with a nonempty stem all of whose
characters are ASCII, the sanitizer succeeds and returns an identifier
matching the symbol grammar `[A-Za-z_][A-Za-z0-9_]*`, of the form
`{sanitized_stem}_{8-hex-digest}`.  (As stated over arbitrary valid file
names the claim fails: Python's Unicode-aware `str.isalnum` keeps non-ASCII
letters such as `'é'`, see the counterexample.) -/
theorem C2_theorem (name : String) (hascii : asciiOnly name)
    (hstem : pyStem name ≠ []) :
    ∃ out, sanitize_identifier name = some out ∧ isAsciiIdent out = true ∧
      ∃ stemPart hex, out.data = stemPart ++ '_' :: hex ∧
        hex.length = 8 ∧ ∀ c ∈ hex, isHexDigitCh c = true := by
  have hstemascii : ∀ c ∈ pyStem name, c.toNat < 128 :=
    fun c hc => hascii c (pyStem_sub name c hc)
  rw [sanitize_zeta]
  cases hsan : (pyStem name).map
      (fun c => if pyIsAlnum c || c = '_' then c else '_') with
  | nil => exact absurd (List.map_eq_nil_iff.mp hsan) hstem
  | cons c0 rest =>
    have hhexlen : ((md5HexChars (utf8Bytes name)).take 8).length = 8 := by
      rw [List.length_take, md5HexChars_length]
      decide
    have hhex : ∀ c ∈ (md5HexChars (utf8Bytes name)).take 8,
        isHexDigitCh c = true ∧ c.isAlphanum = true := by
      intro c hc
      rcases md5HexChars_shape (utf8Bytes name) c
        (List.take_subset 8 _ hc) with ⟨n, hn, rfl⟩
      exact ⟨(hexDigitChar_props n hn).2.1, (hexDigitChar_props n hn).1⟩
    have hall : ∀ c ∈ c0 :: rest,
        ((c.isAlphanum || (c = '_')) = true) ∧ c.toNat < 128 := by
      intro c hc
      rw [← hsan] at hc
      rcases List.mem_map.mp hc with ⟨d, hd, rfl⟩
      exact sanitized_char_q d (hstemascii d hd)
    refine ⟨_, rfl, ?_, _, (md5HexChars (utf8Bytes name)).take 8, rfl,
      hhexlen, fun c hc => (hhex c hc).1⟩
    by_cases halpha : pyIsAlpha c0 = true
    · rw [if_neg (by simp [halpha])]
      have hc0 : c0.isAlpha = true := by
        rw [pyIsAlpha_ascii c0 (hall c0 (by simp)).2] at halpha
        exact halpha
      have hshape : (c0 :: rest) ++ '_' :: (md5HexChars (utf8Bytes name)).take 8 =
          c0 :: (rest ++ '_' :: (md5HexChars (utf8Bytes name)).take 8) := rfl
      rw [hshape, isAsciiIdent_mk_cons, hc0]
      simp only [Bool.true_or, Bool.true_and]
      rw [List.all_eq_true]
      intro d hd
      rcases List.mem_append.mp hd with hmem | hmem
      · exact (hall d (List.mem_cons_of_mem c0 hmem)).1
      · rcases List.mem_cons.mp hmem with rfl | hmem2
        · decide
        · simp [(hhex d hmem2).2]
    · rw [if_pos (by simp [halpha])]
      have hshape : ('r' :: 'e' :: 's' :: '_' :: (c0 :: rest)) ++
          '_' :: (md5HexChars (utf8Bytes name)).take 8 =
          'r' :: ('e' :: 's' :: '_' :: (c0 :: rest) ++
            '_' :: (md5HexChars (utf8Bytes name)).take 8) := rfl
      rw [hshape, isAsciiIdent_mk_cons, Bool.and_eq_true]
      refine ⟨by decide, ?_⟩
      rw [List.all_eq_true]
      intro d hd
      rcases List.mem_append.mp hd with hmem | hmem
      · rcases List.mem_cons.mp hmem with rfl | hmem2
        · decide
        · rcases List.mem_cons.mp hmem2 with rfl | hmem3
          · decide
          · rcases List.mem_cons.mp hmem3 with rfl | hmem4
            · decide
            · exact (hall d hmem4).1
      · rcases List.mem_cons.mp hmem with rfl | hmem2
        · decide
        · simp [(hhex d hmem2).2]

/-- C2 witness: the theorem applied to the concrete name `a.png`. -/
theorem C2_witness :
    asciiOnly "a.png" ∧ pyStem "a.png" ≠ [] ∧
    (∃ out, sanitize_identifier "a.png" = some out ∧ isAsciiIdent out = true ∧
      ∃ stemPart hex, out.data = stemPart ++ '_' :: hex ∧
        hex.length = 8 ∧ ∀ c ∈ hex, isHexDigitCh c = true) :=
  ⟨by decide, by decide, C2_theorem "a.png" (by decide) (by decide)⟩

/-- C2 counterexample: `é.png` is a valid file name, but the identifier the
sanitizer returns for it starts with `'é'` (Python's Unicode-aware
`str.isalnum`/`str.isalpha` both accept `'é'`), which does not match
`[A-Za-z_][A-Za-z0-9_]*`. -/
theorem C2_counterexample :
    (sanitize_identifier "é.png").map isAsciiIdent = some false := by
  decide

instance (e : WalkEntry) : Decidable (wfEntry e) := by
  unfold wfEntry
  infer_instance

/-- C6: if the input directory does not exist, the Collector returns an
empty mapping rather than raising an error. -/
theorem C6_theorem (walk : List WalkEntry) :
    collect_resources false walk = some [] := rfl

/-- C9: the sanitizer succeeds exactly on inputs with a nonempty stem — it
returns an identifier whenever the stem is nonempty and fails (Python: an
`IndexError` from `sanitized[0]`, modelled as `none`) whenever the stem is
empty — and under the Collector's use on well-formed walk entries the
failing branch is unreachable, so collection always succeeds. -/
theorem C9_theorem :
    (∀ name : String, pyStem name ≠ [] → (sanitize_identifier name).isSome) ∧
    (∀ name : String, pyStem name = [] → sanitize_identifier name = none) ∧
    (∀ (dirExists : Bool) (walk : List WalkEntry), (∀ e ∈ walk, wfEntry e) →
      (collect_resources dirExists walk).isSome) := by
  refine ⟨fun name h => (sanitize_isSome_iff name).mpr h, ?_, ?_⟩
  · intro name h
    cases hs : sanitize_identifier name with
    | none => rfl
    | some x =>
      exact absurd h ((sanitize_isSome_iff name).mp (by rw [hs]; rfl))
  · intro dirExists walk hwf
    cases dirExists with
    | false => rfl
    | true =>
      rcases collect_proj walk hwf with ⟨res, h1, _⟩
      rw [h1]
      rfl

/-- C9 witness: the theorem applied to `a.png` (nonempty stem), `.` (empty
stem: pathlib gives `Path('.').stem == ''`), and a one-file walk. -/
theorem C9_witness :
    (sanitize_identifier "a.png").isSome = true ∧
    sanitize_identifier "." = none ∧
    (collect_resources true [⟨["a.png"], true⟩]).isSome = true :=
  ⟨C9_theorem.1 "a.png" (by decide), C9_theorem.2.1 "." (by decide),
   C9_theorem.2.2 true [⟨["a.png"], true⟩] (by decide)⟩

/-- C3: collision resolution returns the first free candidate of the
sequence `orig, orig_1, orig_2, …` (every earlier candidate is an existing
key, the result is not), and consequently the identifiers of any successful
collection run are pairwise distinct. -/
theorem C3_theorem :
    (∀ (taken : List String) (orig : String),
      ∃ k, resolveCollision taken orig = candidate orig k ∧
        candidate orig k ∉ taken ∧ ∀ j < k, candidate orig j ∈ taken) ∧
    (∀ (dirExists : Bool) (walk : List WalkEntry)
        (res : List (String × ResourceEntry)),
      collect_resources dirExists walk = some res →
        (res.map Prod.fst).Nodup) :=
  ⟨resolveCollision_spec, collect_nodup⟩

/-- C3 witness: the theorem applied to a taken-set containing the original
identifier, and to a walk with two files whose normalized paths coincide
(so their base identifiers collide and the second gets suffix `_1`). -/
theorem C3_witness :
    (∃ k, resolveCollision ["a"] "a" = candidate "a" k ∧
      candidate "a" k ∉ ["a"] ∧ ∀ j < k, candidate "a" j ∈ ["a"]) ∧
    (((collect_resources true [⟨["a.png"], true⟩, ⟨["a.png"], true⟩]).getD
      []).map Prod.fst).Nodup :=
  ⟨C3_theorem.1 ["a"] "a",
   C3_theorem.2 true [⟨["a.png"], true⟩, ⟨["a.png"], true⟩]
     ((collect_resources true
       [⟨["a.png"], true⟩, ⟨["a.png"], true⟩]).getD []) (by decide)⟩

/-- C7: every collected resource records as `relativePath` the entry's
path components joined with forward slashes (the host-independent
normalization), and concretely the nested file `assets/icons/a@2x.png` is
recorded with exactly that path and design scale 2. -/
theorem C7_theorem :
    (∀ (walk : List WalkEntry) (res : List (String × ResourceEntry)),
      (∀ e ∈ walk, wfEntry e) → collect_resources true walk = some res →
      res.map Prod.snd = (walk.filter keepEntry).map entryRes ∧
      ∀ p ∈ res, p.2.relativePath = pyJoin "/" p.2.sourceParts) ∧
    (∃ res, collect_resources true
        [⟨["assets", "icons", "a@2x.png"], true⟩] = some res ∧
      res.map (fun p => (p.2.relativePath, p.2.designScale)) =
        [("assets/icons/a@2x.png", 2)]) := by
  constructor
  · intro walk res hwf heq
    rcases collect_proj walk hwf with ⟨res2, h1, h2⟩
    rw [heq] at h1
    injection h1 with h1
    subst h1
    refine ⟨h2, ?_⟩
    intro p hp
    have hm : p.2 ∈ res.map Prod.snd := List.mem_map_of_mem Prod.snd hp
    rw [h2] at hm
    rcases List.mem_map.mp hm with ⟨e, _, hpe⟩
    rw [← hpe]
    rfl
  · exact ⟨(collect_resources true
      [⟨["assets", "icons", "a@2x.png"], true⟩]).getD [],
      by decide, by decide⟩

/-- C7 witness: the general part of the theorem applied to the concrete
one-file walk. -/
theorem C7_witness :
    ((collect_resources true
        [⟨["assets", "icons", "a@2x.png"], true⟩]).getD []).map Prod.snd =
      ([(⟨["assets", "icons", "a@2x.png"], true⟩ : WalkEntry)].filter
        keepEntry).map entryRes :=
  (C7_theorem.1 [⟨["assets", "icons", "a@2x.png"], true⟩]
    ((collect_resources true
      [⟨["assets", "icons", "a@2x.png"], true⟩]).getD [])
    (by decide) (by decide)).1

/-- C10: the hidden-file test looks only at the entry's own base name: a
regular file whose name does not start with `'.'` is collected even when an
ancestor directory under the input root is hidden. -/
theorem C10_theorem (walk : List WalkEntry)
    (res : List (String × ResourceEntry)) (e : WalkEntry)
    (hwf : ∀ e2 ∈ walk, wfEntry e2)
    (heq : collect_resources true walk = some res)
    (hmem : e ∈ walk) (hfile : e.isFile = true)
    (hname : startsWithDot e.fname = false)
    (_hanc : ∃ d ∈ e.parts, startsWithDot d = true) :
    pyJoin "/" e.parts ∈ res.map (fun p => p.2.relativePath) := by
  rcases collect_proj walk hwf with ⟨res2, h1, h2⟩
  rw [heq] at h1
  injection h1 with h1
  subst h1
  have hkeep : keepEntry e = true := by simp [keepEntry, hfile, hname]
  have hm : entryRes e ∈ res.map Prod.snd := by
    rw [h2]
    exact List.mem_map_of_mem entryRes (List.mem_filter_of_mem hmem hkeep)
  rcases List.mem_map.mp hm with ⟨p, hp, hpe⟩
  have hrel : p.2.relativePath = pyJoin "/" e.parts := by rw [hpe]; rfl
  rw [← hrel]
  exact List.mem_map_of_mem _ hp

/-- C10 witness: the theorem applied to a file inside a hidden directory. -/
theorem C10_witness :
    pyJoin "/" [".hidden", "a.png"] ∈
      ((collect_resources true [⟨[".hidden", "a.png"], true⟩]).getD []).map
        (fun p => p.2.relativePath) :=
  C10_theorem [⟨[".hidden", "a.png"], true⟩]
    ((collect_resources true [⟨[".hidden", "a.png"], true⟩]).getD [])
    ⟨[".hidden", "a.png"], true⟩
    (by decide) (by decide) (by decide) (by decide) (by decide)
    ⟨".hidden", by decide, by decide⟩

/-- C1: for every resource of the collected mapping, the emitted
`ResourceData` size field equals the byte length of the file read from its
source path, and the emitted byte-array literal is exactly the
hex-formatted, comma-separated rendering of those bytes, in order (the
decoder recovers the byte list exactly). -/
theorem C1_theorem (resources : List (String × ResourceEntry))
    (readFile : List String → Option (List Nat)) (src : SourceArtifact)
    (heq : generate_source resources readFile = some src)
    (i : Nat) (hi : i < resources.length) (hi2 : i < src.records.length) :
    ∃ data, readFile (resources.get ⟨i, hi⟩).2.sourceParts = some data ∧
      (src.records.get ⟨i, hi2⟩).size = data.length ∧
      (src.records.get ⟨i, hi2⟩).hexData = hexDataLit data ∧
      ((∀ b ∈ data, b < 256) →
        decodeHexData (src.records.get ⟨i, hi2⟩).hexData.data = some data) := by
  unfold generate_source at heq
  cases hml : optionMapList (emitOne readFile) resources with
  | none => rw [hml] at heq; cases heq
  | some recs =>
    rw [hml] at heq
    have heq2 : some (⟨recs, resources.map Prod.fst, resources.length⟩ :
        SourceArtifact) = some src := heq
    injection heq2 with heq2
    subst heq2
    have hget := optionMapList_get (emitOne readFile) resources recs hml i hi hi2
    unfold emitOne at hget
    cases hrf : readFile (resources.get ⟨i, hi⟩).2.sourceParts with
    | none => rw [hrf] at hget; cases hget
    | some data =>
      rw [hrf] at hget
      injection hget with hget
      refine ⟨data, rfl, ?_, ?_, ?_⟩
      · rw [← hget]
      · rw [← hget]
      · intro hb
        rw [← hget]
        exact decode_hexDataLit data hb

/-- C1 witness: the theorem applied to a one-resource mapping whose file
content is `[0, 255]`. -/
theorem C1_witness :
    ∃ data, some [0, 255] = some data ∧ 2 = data.length ∧
      "0x00, 0xff" = hexDataLit data ∧
      ((∀ b ∈ data, b < 256) →
        decodeHexData ("0x00, 0xff" : String).data = some data) :=
  C1_theorem [("id", ⟨["a"], "a", 1⟩)] (fun _ => some [0, 255])
    ⟨[⟨"id", "0x00, 0xff", 2, "a", 1⟩], ["id"], 1⟩ (by decide)
    0 (by decide) (by decide)

/-- C8: the three emitters enumerate the same resources in mapping order:
the header declarations, the identifiers of the source records, the
`all_resources` array contents and the JSON index identifiers all equal the
mapping's key sequence, so the JSON entry count equals the number of
`ResourceData` records. -/
theorem C8_theorem (resources : List (String × ResourceEntry))
    (readFile : List String → Option (List Nat))
    (stat : List String → Option (Nat × Nat))
    (src : SourceArtifact) (idx : List IndexEntry)
    (hsrc : generate_source resources readFile = some src)
    (hidx : generate_index resources stat = some idx) :
    generate_header resources = resources.map Prod.fst ∧
    src.records.map EmittedResource.identifier = resources.map Prod.fst ∧
    src.arrayIds = resources.map Prod.fst ∧
    src.count = resources.length ∧
    idx.map IndexEntry.identifier = resources.map Prod.fst ∧
    idx.length = src.records.length := by
  unfold generate_source at hsrc
  cases hml : optionMapList (emitOne readFile) resources with
  | none => rw [hml] at hsrc; cases hsrc
  | some recs =>
    rw [hml] at hsrc
    have hsrc2 : some (⟨recs, resources.map Prod.fst, resources.length⟩ :
        SourceArtifact) = some src := hsrc
    injection hsrc2 with hsrc2
    subst hsrc2
    have hrecs : recs.map EmittedResource.identifier =
        resources.map Prod.fst := by
      refine optionMapList_map_eq (emitOne readFile)
        EmittedResource.identifier Prod.fst ?_ resources recs hml
      intro a b hab
      unfold emitOne at hab
      cases hrf : readFile a.2.sourceParts with
      | none => rw [hrf] at hab; cases hab
      | some data => rw [hrf] at hab; injection hab with hab; rw [← hab]
    have hidx2 : idx.map IndexEntry.identifier = resources.map Prod.fst := by
      refine optionMapList_map_eq _ IndexEntry.identifier Prod.fst ?_
        resources idx hidx
      intro a b hab
      simp only [] at hab
      cases hst : stat a.2.sourceParts with
      | none => rw [hst] at hab; cases hab
      | some sm => rw [hst] at hab; injection hab with hab; rw [← hab]
    refine ⟨rfl, hrecs, rfl, rfl, hidx2, ?_⟩
    have l1 := congrArg List.length hrecs
    have l2 := congrArg List.length hidx2
    simp only [List.length_map] at l1 l2
    show idx.length = recs.length
    omega

/-- C8 witness: the theorem applied to a one-resource mapping with a
readable file and a successful stat. -/
theorem C8_witness :
    generate_header [("id", (⟨["a"], "a", 1⟩ : ResourceEntry))] = ["id"] ∧
    [(⟨"id", "0x07", 1, "a", 1⟩ : EmittedResource)].map
      EmittedResource.identifier = ["id"] ∧
    (["id"] : List String) = ["id"] ∧ (1 : Nat) = 1 ∧
    [(⟨"id", "a", 1, 1, 5⟩ : IndexEntry)].map IndexEntry.identifier = ["id"] ∧
    [(⟨"id", "a", 1, 1, 5⟩ : IndexEntry)].length =
      [(⟨"id", "0x07", 1, "a", 1⟩ : EmittedResource)].length :=
  C8_theorem [("id", ⟨["a"], "a", 1⟩)] (fun _ => some [7])
    (fun _ => some (1, 5)) ⟨[⟨"id", "0x07", 1, "a", 1⟩], ["id"], 1⟩
    [⟨"id", "a", 1, 1, 5⟩] (by decide) (by decide)

/-- C4 (amended): if some collected resource's file is unreadable when the
source emitter reads it, the run fails — the source artifact is not written
(not even partially: all reads happen before the output file is opened) and
the index is never attempted — but output already emitted earlier in the
run (the header) is not rolled back.  (The claim's "no partial output
produced" is false for the run as a whole: see the counterexample, where
the header has already been written.) -/
theorem C4_theorem (dirExists : Bool) (walk : List WalkEntry)
    (readFile : List String → Option (List Nat))
    (stat : List String → Option (Nat × Nat))
    (res : List (String × ResourceEntry)) (p : String × ResourceEntry)
    (hcol : collect_resources dirExists walk = some res)
    (hp : p ∈ res) (hrf : readFile p.2.sourceParts = none) :
    (runTool dirExists walk readFile stat).ok = false ∧
    (runTool dirExists walk readFile stat).source = none ∧
    (runTool dirExists walk readFile stat).index = none := by
  have hsrc : generate_source res readFile = none := by
    unfold generate_source
    rw [optionMapList_none (emitOne readFile) res p hp
      (by unfold emitOne; rw [hrf])]
    rfl
  unfold runTool
  rw [hcol]
  simp only [hsrc]
  exact ⟨trivial, trivial, trivial⟩

/-- C4 witness: the amended theorem applied to a one-file walk whose file
read fails. -/
theorem C4_witness :
    (runTool true [⟨["a.png"], true⟩] (fun _ => none) (fun _ => none)).ok
      = false ∧
    (runTool true [⟨["a.png"], true⟩] (fun _ => none) (fun _ => none)).source
      = none ∧
    (runTool true [⟨["a.png"], true⟩] (fun _ => none) (fun _ => none)).index
      = none :=
  C4_theorem true [⟨["a.png"], true⟩] (fun _ => none) (fun _ => none)
    ((collect_resources true [⟨["a.png"], true⟩]).getD [])
    (((collect_resources true [⟨["a.png"], true⟩]).getD []).get
      ⟨0, by decide⟩)
    (by decide) (by decide) (by decide)

/-- C4 counterexample: at the same input the run does fail, but the header
file has already been written (`header ≠ none`), so "the whole run fails
with no partial output produced" is false — `main` emits the header before
the source emitter performs any file read. -/
theorem C4_counterexample :
    ¬ ((runTool true [⟨["a.png"], true⟩] (fun _ => none)
          (fun _ => none)).ok = false ∧
       (runTool true [⟨["a.png"], true⟩] (fun _ => none)
          (fun _ => none)).header = none ∧
       (runTool true [⟨["a.png"], true⟩] (fun _ => none)
          (fun _ => none)).source = none ∧
       (runTool true [⟨["a.png"], true⟩] (fun _ => none)
          (fun _ => none)).index = none) := by
  decide

/-! ### Scale-parser verification -/

theorem markerAt_x_not_digit (x : Char) (hx : x = 'x' ∨ x = 'X') :
    x.isDigit = false := by
  rcases hx with rfl | rfl <;> decide

theorem takeWhile_app (p : Char → Bool) : ∀ (ds : List Char) (x : Char)
    (t : List Char), (∀ c ∈ ds, p c = true) → p x = false →
    (ds ++ x :: t).takeWhile p = ds ∧ (ds ++ x :: t).dropWhile p = x :: t := by
  intro ds
  induction ds with
  | nil =>
    intro x t _ hpx
    simp [List.takeWhile_cons, List.dropWhile_cons, hpx]
  | cons d ds ih =>
    intro x t hall hpx
    have hd : p d = true := hall d (by simp)
    rcases ih x t (fun c hc => hall c (by simp [hc])) hpx with ⟨h1, h2⟩
    simp [List.takeWhile_cons, List.dropWhile_cons, hd, h1, h2]

theorem matchAt_eq_some (l : List Char) (v : Nat) :
    matchAt l = some v ↔ markerAt l 0 v := by
  constructor
  · intro h
    match l with
    | [] => cases h
    | c :: rest =>
      rw [matchAt] at h
      by_cases hc : c = '@'
      · rw [if_pos hc] at h
        by_cases hds : rest.takeWhile Char.isDigit = []
        · rw [if_pos hds] at h; cases h
        · rw [if_neg hds] at h
          cases hdw : rest.dropWhile Char.isDigit with
          | nil => rw [hdw] at h; cases h
          | cons x tail =>
            cases tail with
            | nil => rw [hdw] at h; cases h
            | cons y rest2 =>
              rw [hdw] at h
              have h3 : (if y = '.' ∧ (x = 'x' ∨ x = 'X') ∧
                  extAfter rest2 = true then
                  some (digitsVal (rest.takeWhile Char.isDigit))
                  else none) = some v := h
              by_cases hcond : y = '.' ∧ (x = 'x' ∨ x = 'X') ∧
                  extAfter rest2 = true
              · rw [if_pos hcond] at h3
                injection h3 with h3
                refine ⟨rest.takeWhile Char.isDigit, x, rest2, ?_, hds,
                  fun d hd => List.mem_takeWhile_imp hd, hcond.2.1,
                  hcond.2.2, h3.symm⟩
                rw [List.drop_zero, hc]
                have h4 := List.takeWhile_append_dropWhile Char.isDigit rest
                rw [hdw, hcond.1] at h4
                rw [h4]
              · rw [if_neg hcond] at h3; cases h3
      · rw [if_neg hc] at h; cases h
  · rintro ⟨ds, x, rest, heq, hne, hdig, hx, hext, hv⟩
    rw [List.drop_zero] at heq
    rw [heq]
    have hxd : Char.isDigit x = false := markerAt_x_not_digit x hx
    rcases takeWhile_app Char.isDigit ds x ('.' :: rest) hdig hxd with ⟨h1, h2⟩
    rw [matchAt, if_pos rfl, h1, h2, if_neg hne]
    show (if ('.' : Char) = '.' ∧ (x = 'x' ∨ x = 'X') ∧ extAfter rest = true
      then some (digitsVal ds) else none) = some v
    rw [if_pos ⟨rfl, hx, hext⟩, hv]

theorem markerAt_cons_succ (c : Char) (l : List Char) (i v : Nat) :
    markerAt (c :: l) (i + 1) v ↔ markerAt l i v := by
  unfold markerAt
  rw [List.drop_succ_cons]

theorem searchScale_sound : ∀ (l : List Char) (v : Nat),
    searchScale l = some v →
      ∃ i, markerAt l i v ∧ ∀ j < i, ∀ w, ¬ markerAt l j w := by
  intro l
  induction l with
  | nil => intro v h; cases h
  | cons c rest ih =>
    intro v h
    rw [searchScale] at h
    cases hm : matchAt (c :: rest) with
    | some w =>
      rw [hm] at h
      injection h with h
      subst h
      exact ⟨0, (matchAt_eq_some (c :: rest) w).mp hm, by omega⟩
    | none =>
      rw [hm] at h
      rcases ih v h with ⟨i, hmk, hmin⟩
      refine ⟨i + 1, (markerAt_cons_succ c rest i v).mpr hmk, ?_⟩
      intro j hj w hw
      match j with
      | 0 =>
        rw [← matchAt_eq_some (c :: rest) w] at hw
        rw [hw] at hm
        cases hm
      | j + 1 =>
        exact hmin j (by omega) w ((markerAt_cons_succ c rest j w).mp hw)

theorem searchScale_complete : ∀ (l : List Char) (i v : Nat),
    markerAt l i v → (∀ j w, markerAt l j w → i ≤ j) →
      searchScale l = some v := by
  intro l
  induction l with
  | nil =>
    intro i v hm _
    rcases hm with ⟨ds, x, rest, heq, _⟩
    rw [List.drop_nil] at heq
    cases heq
  | cons c rest ih =>
    intro i v hm hmin
    match i with
    | 0 =>
      rw [searchScale, (matchAt_eq_some (c :: rest) v).mpr hm]
    | i + 1 =>
      have hnone : matchAt (c :: rest) = none := by
        cases hmc : matchAt (c :: rest) with
        | none => rfl
        | some w =>
          have := hmin 0 w ((matchAt_eq_some (c :: rest) w).mp hmc)
          omega
      rw [searchScale, hnone]
      exact ih i v ((markerAt_cons_succ c rest i v).mp hm)
        (fun j w hw => by
          have := hmin (j + 1) w ((markerAt_cons_succ c rest j w).mpr hw)
          omega)

theorem searchScale_none (l : List Char) (h : ∀ i v, ¬ markerAt l i v) :
    searchScale l = none := by
  cases hs : searchScale l with
  | none => rfl
  | some v =>
    rcases searchScale_sound l v hs with ⟨i, hm, _⟩
    exact absurd hm (h i v)

/-- C5: `parse_design_scale` returns the captured integer of the density
marker `@<digits>x` immediately followed by `.` and an image extension
(png/jpg/jpeg/bmp, case-insensitive) exactly when the filename contains
such a marker — the leftmost one when several exist — and returns 1
otherwise; the digits are not validated (`@0x.png` yields 0, `plain.png`
yields 1).  The integral Python float result is modelled as `Nat`. -/
theorem C5_theorem :
    (∀ (s : String) (i v : Nat), markerAt s.data i v →
      (∀ j w, markerAt s.data j w → i ≤ j) → parse_design_scale s = v) ∧
    (∀ s : String, (∀ i v, ¬ markerAt s.data i v) →
      parse_design_scale s = 1) ∧
    parse_design_scale "@0x.png" = 0 ∧ parse_design_scale "plain.png" = 1 := by
  refine ⟨?_, ?_, by decide, by decide⟩
  · intro s i v hm hmin
    unfold parse_design_scale
    rw [searchScale_complete s.data i v hm hmin]
    rfl
  · intro s hnone
    unfold parse_design_scale
    rw [searchScale_none s.data hnone]
    rfl

/-- C5 witness: the theorem applied to `@2x.png`, whose marker sits at
position 0 (trivially leftmost) with digits value 2. -/
theorem C5_witness :
    markerAt ("@2x.png" : String).data 0 2 ∧
    parse_design_scale "@2x.png" = 2 := by
  have hm : markerAt ("@2x.png" : String).data 0 2 :=
    ⟨['2'], 'x', ['p', 'n', 'g'], by decide, by decide, by decide,
     Or.inl rfl, by decide, by decide⟩
  exact ⟨hm, C5_theorem.1 "@2x.png" 0 2 hm (fun j w _ => Nat.zero_le j)⟩
